import Mathlib

/-!
Verification of the FFT-based polynomial multiplier in `src/main.rs`.

The Rust program works over `Complex<f64>`; we model `f64` by `ℝ` (so `Complex<f64>`
becomes `ℂ`), idealising floating-point arithmetic as exact real arithmetic.  Statements
of the spec that allow a floating-point tolerance are established as exact equalities in
this idealised model.  Panics (the `assert!` in `evaluate`, and the `usize` underflow of
`n + m - 1` in `mul`, which panics in debug builds) are modelled by `Option`: `none`
means the call halts without returning.  In-place mutation of buffers is modelled by
explicit state passing: a function that mutates a slice and returns a vector is modelled
as returning the pair (final contents of the slice, returned vector).
-/

namespace PolyFFT

/-- A buffer of complex samples: `Vec<Complex<f64>>` with `f64` idealised as `ℝ`. -/
abbrev Buf := List ℂ

/-- The `From<Vec<f64>>` impl: each real coefficient is promoted to a complex sample
with zero imaginary part (`Complex::from`). -/
noncomputable def ofReals (l : List ℝ) : Buf := l.map (fun r => (r : ℂ))

/-- Rust `usize::is_power_of_two`: true iff `n` is a power of two (false at `0`).
`2 ^ n.log2 = n` holds exactly for the powers of two, and `n = 0` gives `0 == 1`. -/
def isPow2 (n : ℕ) : Bool := n == 2 ^ n.log2

/-- The index map computed in `shuffle_coeffs`:
`x.reverse_bits() >> (8 * size_of::<usize>() - log)`, i.e. the reversal of the low
`log` bits of `x` (the source applies it only to `x < n = 2 ^ log`, where the 64-bit
reversal shifted right by `64 - log` is exactly this `log`-bit reversal). -/
def bitRev : ℕ → ℕ → ℕ
  | 0, _ => 0
  | w + 1, x => x % 2 * 2 ^ w + bitRev w (x / 2)

/-- Rust `<[_]>::swap(i, j)` on a buffer. -/
def swapL (l : Buf) (i j : ℕ) : Buf := (l.set i (l.getD j 0)).set j (l.getD i 0)

/-- The loop of `shuffle_coeffs`: for `x = 0, 1, …, count-1` in order, swap positions
`x` and `rev x` whenever `x < rev x` (the `filter(|(a, b)| a < b)`). -/
def shuffleAux (rev : ℕ → ℕ) : ℕ → Buf → Buf
  | 0, l => l
  | x + 1, l =>
    if x < rev x then swapL (shuffleAux rev x l) x (rev x) else shuffleAux rev x l

/-- `Polynomial::shuffle_coeffs(input, n, log)`: in-place bit-reversal permutation. -/
def shuffle_coeffs (input : Buf) (n : ℕ) (log : ℕ) : Buf :=
  shuffleAux (bitRev log) n input

/-- The `successors(Some(1), |prev| Some(prev * first))` iterator of `evaluate`:
`twiddle w j` is the `j`-th element `w^j`, built by repeated multiplication. -/
noncomputable def twiddle (w : ℂ) : ℕ → ℂ
  | 0 => 1
  | j + 1 => twiddle w j * w

/-- The stage root `first = Complex::new(part.cos(), part.sin())` where
`part = sign * 2π / step`. -/
noncomputable def rootOf (sign : ℝ) (step : ℕ) : ℂ :=
  ⟨Real.cos (sign * 2 * Real.pi / step), Real.sin (sign * 2 * Real.pi / step)⟩

/-- One butterfly: the loop body of `evaluate`'s innermost loop at offset `j` of the
block starting at `i`, with half-block size `h = step / 2` and stage root `w`:
`a = ret[i+j]; b = w^j * ret[i+j+h]; ret[i+j] = a + b; ret[i+j+h] = a - b`. -/
noncomputable def bfly (h : ℕ) (w : ℂ) (i j : ℕ) (ret : Buf) : Buf :=
  let a := ret.getD (i + j) 0
  let b := twiddle w j * ret.getD (i + j + h) 0
  (ret.set (i + j) (a + b)).set (i + j + h) (a - b)

/-- `for (num, j) in iter.clone().zip(0..step/2)`: butterflies at offsets
`j = 0, …, count-1` (in order) of the block starting at `i`. -/
noncomputable def innerLoop (h : ℕ) (w : ℂ) (i : ℕ) : ℕ → Buf → Buf
  | 0, ret => ret
  | j + 1, ret => bfly h w i j (innerLoop h w i j ret)

/-- `for i in (0..n).step_by(step)`: process `count` blocks `i = 0, step, 2*step, …`
(in order), running the full inner loop (`h = step / 2` butterflies) on each. -/
noncomputable def blockLoop (h : ℕ) (w : ℂ) (step : ℕ) : ℕ → Buf → Buf
  | 0, ret => ret
  | b + 1, ret => innerLoop h w (b * step) h (blockLoop h w step b ret)

/-- `for step in (1..).map(|x| 1 << x).take(log)`: stages with `step = 2, 4, …, 2^count`
(in order); the stage with `step = 2^(t+1)` runs `n / step` blocks with root
`rootOf sign step` and half-block size `2^t`. -/
noncomputable def stages (sign : ℝ) (n : ℕ) : ℕ → Buf → Buf
  | 0, ret => ret
  | t + 1, ret =>
    blockLoop (2 ^ t) (rootOf sign (2 ^ (t + 1))) (2 ^ (t + 1)) (n / 2 ^ (t + 1))
      (stages sign n t ret)

/-- `Polynomial::evaluate(input, sign)`.  Returns `none` when the
`assert!(n.is_power_of_two())` fails.  Otherwise returns the pair
(final contents of `input`, returned vector `ret`): the source bit-reversal-permutes
`input` in place, copies it to `ret` (`input.to_owned()`), runs the butterfly stages on
`ret`, and permutes `input` back before returning `ret`.  For a power of two,
`n.trailing_zeros()` equals `n.log2`. -/
noncomputable def evaluate (input : Buf) (sign : ℝ) : Option (Buf × Buf) :=
  let n := input.length
  if isPow2 n then
    let log := n.log2
    let shuffled := shuffle_coeffs input n log
    let ret := stages sign n log shuffled
    some (shuffle_coeffs shuffled n log, ret)
  else
    none

/-- `Polynomial::fft`: `evaluate` with `sign = 1`. -/
noncomputable def fft (input : Buf) : Option (Buf × Buf) := evaluate input 1

/-- `Polynomial::inverse_fft`: `evaluate` with `sign = -1`, then divide every returned
sample by `n = coeffs.len()`. -/
noncomputable def inverse_fft (input : Buf) : Option (Buf × Buf) :=
  (evaluate input (-1)).map fun p => (p.1, p.2.map fun x => x / (p.2.length : ℂ))

/-- Rust `Vec::resize_with(k, Default::default)`: truncate to `k` if shorter, else pad
with zeros (`Complex::default()`) up to length `k`. -/
def resizeZ (l : Buf) (k : ℕ) : Buf := l.take k ++ List.replicate (k - l.length) 0

/-- Rust `usize::next_power_of_two`: the least power of two `≥ max n 1`. -/
def nextPow2 (n : ℕ) : ℕ := 2 ^ Nat.clog 2 n

/-- `Polynomial::mul(&mut self, rhs: &mut Self)`.  Returns `none` when
`n + m - 1` underflows `usize` (both inputs empty; a debug-build panic) or an inner
`evaluate` assertion fails (propagated through `Option.bind`); otherwise returns
(final contents of `self.coeffs`, final contents of `rhs.coeffs`, product coefficients):
the source resizes both buffers with zero padding to
`new_aligned_size = (n + m - 1).next_power_of_two()`, runs `fft` on each, multiplies the
point sequences elementwise (`zip … map |(x, y)| x * y`), runs `inverse_fft`, truncates
both operand buffers back to `n` and `m`, and truncates the result to `n + m - 1`. -/
noncomputable def mul (self rhs : Buf) : Option (Buf × Buf × Buf) :=
  if self.length + rhs.length = 0 then none
  else
    (fft (resizeZ self (nextPow2 (self.length + rhs.length - 1)))).bind fun sp =>
      (fft (resizeZ rhs (nextPow2 (self.length + rhs.length - 1)))).bind fun rp =>
        (inverse_fft (List.zipWith (· * ·) sp.2 rp.2)).bind fun ic =>
          some (sp.1.take self.length, rp.1.take rhs.length,
            ic.2.take (self.length + rhs.length - 1))

/-- The naive O(n·m) discrete convolution of two coefficient buffers (the spec's ground
truth for `mul`): length `n + m - 1`, entry `k` is `∑_{i ≤ k} a_i * b_{k-i}` with
out-of-range coefficients read as `0`. -/
noncomputable def naiveConv (a b : Buf) : Buf :=
  (List.range (a.length + b.length - 1)).map fun k =>
    ∑ i ∈ Finset.range (k + 1), a.getD i 0 * b.getD (k - i) 0

/-- The discrete Fourier transform with sign `sign` of the length-`n` sequence `x`:
entry `k` is `∑_{j < n} x_j · (rootOf sign n)^(j·k)`. -/
noncomputable def dftF (sign : ℝ) (n : ℕ) (x : ℕ → ℂ) (k : ℕ) : ℂ :=
  ∑ j ∈ Finset.range n, x j * rootOf sign n ^ (j * k)

/-! ### Basic `getD` lemmas -/

lemma getD_set_self (l : Buf) (i : ℕ) (h : i < l.length) (v : ℂ) :
    (l.set i v).getD i 0 = v := by
  simp [List.getD_eq_getElem?_getD, List.getElem?_set_self, h]

lemma getD_set_ne (l : Buf) (i k : ℕ) (h : i ≠ k) (v : ℂ) :
    (l.set i v).getD k 0 = l.getD k 0 := by
  simp [List.getD_eq_getElem?_getD, List.getElem?_set_ne h]

lemma getD_replicate (k i : ℕ) : (List.replicate k (0 : ℂ)).getD i 0 = 0 := by
  rcases lt_or_ge i k with h | h
  · simp [List.getD_eq_getElem?_getD, List.getElem?_replicate, h]
  · simp [List.getD_eq_getElem?_getD,
      List.getElem?_eq_none (l := List.replicate k (0 : ℂ)) (by simpa using h)]

lemma getD_take (l : Buf) (k i : ℕ) (h : i < k) : (l.take k).getD i 0 = l.getD i 0 := by
  simp [List.getD_eq_getElem?_getD, List.getElem?_take, h]

lemma getD_append_left (a b : Buf) (i : ℕ) (h : i < a.length) :
    (a ++ b).getD i 0 = a.getD i 0 := by
  simp [List.getD_eq_getElem?_getD, List.getElem?_append, h]

lemma getD_append_right (a b : Buf) (i : ℕ) (h : a.length ≤ i) :
    (a ++ b).getD i 0 = b.getD (i - a.length) 0 := by
  simp [List.getD_eq_getElem?_getD, List.getElem?_append, Nat.not_lt.mpr h]

lemma getD_map_mul (f : ℂ → ℂ) (l : Buf) (i : ℕ) (h : i < l.length) :
    (l.map f).getD i 0 = f (l.getD i 0) := by
  simp [List.getD_eq_getElem?_getD, List.getElem?_map, List.getElem?_eq_getElem h]

lemma getD_zipWith_mul (a b : Buf) (i : ℕ) (ha : i < a.length) (hb : i < b.length) :
    (List.zipWith (· * ·) a b).getD i 0 = a.getD i 0 * b.getD i 0 := by
  simp [List.getD_eq_getElem?_getD, List.getElem?_zipWith,
    List.getElem?_eq_getElem ha, List.getElem?_eq_getElem hb]

lemma getD_range_map (f : ℕ → ℂ) (n i : ℕ) (h : i < n) :
    ((List.range n).map f).getD i 0 = f i := by
  simp [List.getD_eq_getElem?_getD, List.getElem?_map, List.getElem?_range h]

lemma getD_of_length_le (l : Buf) (i : ℕ) (h : l.length ≤ i) : l.getD i 0 = 0 := by
  simp [List.getD_eq_getElem?_getD, List.getElem?_eq_none (l := l) h]

/-- Two buffers of equal length agreeing at every index (via `getD`) are equal. -/
lemma ext_getD (a b : Buf) (hlen : a.length = b.length)
    (h : ∀ i, i < a.length → a.getD i 0 = b.getD i 0) : a = b := by
  apply List.ext_get hlen
  intro i h1 h2
  have := h i h1
  rwa [List.getD_eq_getElem?_getD, List.getD_eq_getElem?_getD,
    List.getElem?_eq_getElem h1, List.getElem?_eq_getElem h2] at this

/-! ### Bit reversal -/

lemma bitRev_lt (w x : ℕ) : bitRev w x < 2 ^ w := by
  induction w generalizing x with
  | zero => simp [bitRev]
  | succ w ih =>
    have h1 := ih (x / 2)
    have h2 : x % 2 < 2 := Nat.mod_lt _ (by norm_num)
    have h3 : (2 : ℕ) ^ (w + 1) = 2 ^ w * 2 := pow_succ 2 w
    rcases Nat.mod_two_eq_zero_or_one x with h | h <;>
      simp only [bitRev, h] <;> omega

lemma bitRev_succ (w x : ℕ) : bitRev (w + 1) x = x % 2 * 2 ^ w + bitRev w (x / 2) := rfl

/-- Reversing `c·2^w + r` over `w+1` bits (with `r < 2^w`, `c < 2`) puts `c` at the
bottom and the `w`-bit reversal of `r` on top. -/
lemma bitRev_append_bit (w c r : ℕ) (hr : r < 2 ^ w) (hc : c < 2) :
    bitRev (w + 1) (c * 2 ^ w + r) = 2 * bitRev w r + c := by
  induction w generalizing c r with
  | zero =>
    interval_cases r
    interval_cases c <;> simp [bitRev]
  | succ w ih =>
    have hp : (2 : ℕ) ^ (w + 1) = 2 ^ w * 2 := pow_succ 2 w
    have hr2 : r / 2 < 2 ^ w := by omega
    have hmod : (c * 2 ^ (w + 1) + r) % 2 = r % 2 := by
      rcases (by omega : c = 0 ∨ c = 1) with h | h <;> subst h <;> omega
    have hdiv : (c * 2 ^ (w + 1) + r) / 2 = c * 2 ^ w + r / 2 := by
      rcases (by omega : c = 0 ∨ c = 1) with h | h <;> subst h <;> omega
    rw [bitRev_succ, hmod, hdiv, ih c (r / 2) hr2 hc, bitRev_succ, hp]
    ring

lemma bitRev_two_mul (w b : ℕ) : bitRev (w + 1) (2 * b) = bitRev w b := by
  simp [bitRev_succ, Nat.mul_div_cancel_left, Nat.mul_mod_right]

lemma bitRev_two_mul_add_one (w b : ℕ) :
    bitRev (w + 1) (2 * b + 1) = 2 ^ w + bitRev w b := by
  simp [bitRev_succ, Nat.mul_add_mod, Nat.mul_add_div]

lemma bitRev_bitRev (w x : ℕ) (hx : x < 2 ^ w) : bitRev w (bitRev w x) = x := by
  induction w generalizing x with
  | zero => simp only [show x = 0 by omega, bitRev]
  | succ w ih =>
    have hx2 : x / 2 < 2 ^ w := by
      have h3 : (2 : ℕ) ^ (w + 1) = 2 ^ w * 2 := pow_succ 2 w
      omega
    have hlt : bitRev w (x / 2) < 2 ^ w := bitRev_lt w (x / 2)
    have hc : x % 2 < 2 := Nat.mod_lt _ (by norm_num)
    calc bitRev (w + 1) (bitRev (w + 1) x)
        = bitRev (w + 1) (x % 2 * 2 ^ w + bitRev w (x / 2)) := by
          nth_rewrite 2 [bitRev_succ]
          rfl
      _ = 2 * bitRev w (bitRev w (x / 2)) + x % 2 :=
          bitRev_append_bit w (x % 2) (bitRev w (x / 2)) hlt hc
      _ = 2 * (x / 2) + x % 2 := by rw [ih _ hx2]
      _ = x := by omega

/-! ### Shuffle (bit-reversal permutation) -/

lemma length_swapL (l : Buf) (i j : ℕ) : (swapL l i j).length = l.length := by
  simp [swapL]

lemma getD_swapL_fst (l : Buf) (i j : ℕ) (hi : i < l.length) (hij : i ≠ j) :
    (swapL l i j).getD i 0 = l.getD j 0 := by
  unfold swapL
  rw [getD_set_ne _ _ _ (Ne.symm hij), getD_set_self _ _ hi]

lemma getD_swapL_snd (l : Buf) (i j : ℕ) (hj : j < l.length) :
    (swapL l i j).getD j 0 = l.getD i 0 := by
  unfold swapL
  rw [getD_set_self]
  simpa using hj

lemma getD_swapL_other (l : Buf) (i j k : ℕ) (hik : i ≠ k) (hjk : j ≠ k) :
    (swapL l i j).getD k 0 = l.getD k 0 := by
  unfold swapL
  rw [getD_set_ne _ _ _ hjk, getD_set_ne _ _ _ hik]

lemma length_shuffleAux (rev : ℕ → ℕ) (c : ℕ) (l : Buf) :
    (shuffleAux rev c l).length = l.length := by
  induction c with
  | zero => rfl
  | succ x ih =>
    unfold shuffleAux
    by_cases h : x < rev x <;> simp [h, length_swapL, ih]

/-- Invariant of the shuffle loop: after processing `x = 0, …, c-1`, position `k` holds
the original value at `rev k` when the pair `{k, rev k}` has already been visited
(`min k (rev k) < c`), and its original value otherwise.  Requires `rev` to be an
involution of `[0, n)`. -/
lemma shuffleAux_getD (rev : ℕ → ℕ) (n : ℕ)
    (hlt : ∀ i, i < n → rev i < n) (hinv : ∀ i, i < n → rev (rev i) = i)
    (l : Buf) (hl : l.length = n) :
    ∀ c, c ≤ n → ∀ k, k < n → (shuffleAux rev c l).getD k 0 =
      if min k (rev k) < c then l.getD (rev k) 0 else l.getD k 0 := by
  intro c
  induction c with
  | zero =>
    intro _ k _
    simp [shuffleAux]
  | succ x ih =>
    intro hc k hk
    have hx : x ≤ n := by omega
    have hlen : (shuffleAux rev x l).length = l.length := length_shuffleAux rev x l
    have hxn : x < n := by omega
    show (if x < rev x then swapL (shuffleAux rev x l) x (rev x)
        else shuffleAux rev x l).getD k 0 = _
    by_cases hsw : x < rev x
    · rw [if_pos hsw]
      have hrx : rev x < n := hlt x hxn
      by_cases hkx : k = x
      · -- position `x` receives the value previously at `rev x`, still original there
        rw [hkx, getD_swapL_fst _ _ _ (by omega) (by omega),
          ih hx (rev x) hrx, hinv x hxn]
        rw [if_neg (by omega : ¬ min (rev x) x < x),
          if_pos (by omega : min x (rev x) < x + 1)]
      · by_cases hkrx : k = rev x
        · rw [hkrx, getD_swapL_snd _ _ _ (by omega), ih hx x hxn]
          rw [if_neg (by omega : ¬ min x (rev x) < x)]
          have hrrx : rev (rev x) = x := hinv x hxn
          rw [if_pos (show min (rev x) (rev (rev x)) < x + 1 by rw [hrrx]; omega), hrrx]
        · rw [getD_swapL_other (shuffleAux rev x l) x (rev x) k
            (fun h => hkx h.symm) (fun h => hkrx h.symm), ih hx k hk]
          have hne : min k (rev k) ≠ x := by
            intro h
            rcases le_total k (rev k) with h1 | h1
            · exact hkx (by omega)
            · have h2 : rev k = x := by omega
              exact hkrx (by rw [← h2, hinv k hk])
          by_cases h : min k (rev k) < x
          · rw [if_pos h, if_pos (by omega)]
          · rw [if_neg h, if_neg (by omega)]
    · rw [if_neg hsw, ih hx k hk]
      by_cases hmx : min k (rev k) = x
      · -- the pair `{k, rev k}` is visited exactly at step `x` but no swap happens,
        -- so `rev x ≤ x`; with the involution this forces `rev k = k`.
        have hrev : rev k = k := by
          rcases le_total k (rev k) with h1 | h1
          · have hkx : k = x := by omega
            have h4 : rev k ≤ k := by rw [hkx]; exact Nat.not_lt.mp hsw
            omega
          · have h2 : rev k = x := by omega
            have h3 := hinv k hk
            rw [h2] at h3
            have h4 : rev x ≤ x := Nat.not_lt.mp hsw
            omega
        rw [hrev]
        simp
      · by_cases h : min k (rev k) < x
        · rw [if_pos h, if_pos (by omega)]
        · rw [if_neg h, if_neg (by omega)]

/-- `shuffle_coeffs` realises the bit-reversal permutation: for a buffer of length
`n = 2^log`, position `k` of the result holds the original value at `bitRev log k`. -/
lemma shuffle_coeffs_getD (l : Buf) (log : ℕ) (hl : l.length = 2 ^ log) :
    ∀ k, k < 2 ^ log →
      (shuffle_coeffs l (2 ^ log) log).getD k 0 = l.getD (bitRev log k) 0 := by
  intro k hk
  unfold shuffle_coeffs
  rw [shuffleAux_getD (bitRev log) (2 ^ log) (fun i _ => bitRev_lt log i)
    (fun i hi => bitRev_bitRev log i hi) l hl (2 ^ log) le_rfl k hk]
  have : min k (bitRev log k) < 2 ^ log := by
    have := bitRev_lt log k
    omega
  simp [this]

lemma length_shuffle_coeffs (l : Buf) (n log : ℕ) :
    (shuffle_coeffs l n log).length = l.length := length_shuffleAux _ _ _

/-- Applying the bit-reversal shuffle twice restores the buffer. -/
lemma shuffle_coeffs_shuffle_coeffs (l : Buf) (log : ℕ) (hl : l.length = 2 ^ log) :
    shuffle_coeffs (shuffle_coeffs l (2 ^ log) log) (2 ^ log) log = l := by
  have hlen1 : (shuffle_coeffs l (2 ^ log) log).length = 2 ^ log := by
    rw [length_shuffle_coeffs, hl]
  apply ext_getD
  · rw [length_shuffle_coeffs, hlen1, hl]
  · intro i hi
    rw [length_shuffle_coeffs, hlen1] at hi
    rw [shuffle_coeffs_getD _ log hlen1 i hi,
      shuffle_coeffs_getD l log hl (bitRev log i) (bitRev_lt log i),
      bitRev_bitRev log i hi]

/-! ### Butterfly loops -/

lemma twiddle_eq_pow (w : ℂ) (j : ℕ) : twiddle w j = w ^ j := by
  induction j with
  | zero => rfl
  | succ j ih => rw [twiddle, ih, pow_succ]

lemma bfly_eq (h : ℕ) (w : ℂ) (i j : ℕ) (ret : Buf) : bfly h w i j ret =
    (ret.set (i + j) (ret.getD (i + j) 0 + twiddle w j * ret.getD (i + j + h) 0)).set
      (i + j + h) (ret.getD (i + j) 0 - twiddle w j * ret.getD (i + j + h) 0) := rfl

lemma length_bfly (h : ℕ) (w : ℂ) (i j : ℕ) (ret : Buf) :
    (bfly h w i j ret).length = ret.length := by
  rw [bfly_eq]
  simp

lemma length_innerLoop (h : ℕ) (w : ℂ) (i c : ℕ) (ret : Buf) :
    (innerLoop h w i c ret).length = ret.length := by
  induction c with
  | zero => rfl
  | succ c ih => rw [innerLoop, length_bfly, ih]

lemma length_blockLoop (h : ℕ) (w : ℂ) (step B : ℕ) (ret : Buf) :
    (blockLoop h w step B ret).length = ret.length := by
  induction B with
  | zero => rfl
  | succ B ih => rw [blockLoop, length_innerLoop, ih]

lemma length_stages (sign : ℝ) (n t : ℕ) (ret : Buf) :
    (stages sign n t ret).length = ret.length := by
  induction t with
  | zero => rfl
  | succ t ih => rw [stages, length_blockLoop, ih]

lemma getD_set2_fst (l : Buf) (p q : ℕ) (u v : ℂ) (hp : p < l.length) (hpq : p ≠ q) :
    ((l.set p u).set q v).getD p 0 = u := by
  rw [getD_set_ne _ _ _ (Ne.symm hpq), getD_set_self _ _ hp]

lemma getD_set2_snd (l : Buf) (p q : ℕ) (u v : ℂ) (hq : q < l.length) :
    ((l.set p u).set q v).getD q 0 = v := by
  rw [getD_set_self]
  simpa using hq

lemma getD_set2_other (l : Buf) (p q : ℕ) (u v : ℂ) (k : ℕ) (hpk : p ≠ k) (hqk : q ≠ k) :
    ((l.set p u).set q v).getD k 0 = l.getD k 0 := by
  rw [getD_set_ne _ _ _ hqk, getD_set_ne _ _ _ hpk]

/-- Characterisation of the inner butterfly loop after `c ≤ h` iterations on the block
starting at `i`: offsets `j < c` have received `a + w^j·b`, the mirrored positions
`a − w^j·b`, everything else is untouched.  In particular each iteration reads only
positions not yet written. -/
lemma innerLoop_getD (h : ℕ) (w : ℂ) (i : ℕ) (l : Buf) (n : ℕ) (hl : l.length = n)
    (hh : 0 < h) (hin : i + h + h ≤ n) :
    ∀ c, c ≤ h → ∀ idx, idx < n →
      (innerLoop h w i c l).getD idx 0 =
        if i ≤ idx ∧ idx < i + c then
          l.getD idx 0 + twiddle w (idx - i) * l.getD (idx + h) 0
        else if i + h ≤ idx ∧ idx < i + h + c then
          l.getD (idx - h) 0 - twiddle w (idx - i - h) * l.getD idx 0
        else l.getD idx 0 := by
  intro c
  induction c with
  | zero =>
    intro _ idx _
    rw [if_neg (by omega), if_neg (by omega)]
    rfl
  | succ c ih =>
    intro hc idx hidx
    have hc' : c ≤ h := by omega
    have hL : (innerLoop h w i c l).length = n := by rw [length_innerLoop, hl]
    have hread1 : (innerLoop h w i c l).getD (i + c) 0 = l.getD (i + c) 0 := by
      rw [ih hc' (i + c) (by omega), if_neg (by omega), if_neg (by omega)]
    have hread2 : (innerLoop h w i c l).getD (i + c + h) 0 = l.getD (i + c + h) 0 := by
      rw [ih hc' (i + c + h) (by omega), if_neg (by omega), if_neg (by omega)]
    show (bfly h w i c (innerLoop h w i c l)).getD idx 0 = _
    rw [bfly_eq]
    by_cases h1 : idx = i + c
    · rw [h1, getD_set2_fst _ _ _ _ _ (by omega) (by omega), hread1, hread2,
        if_pos (by omega : i ≤ i + c ∧ i + c < i + (c + 1)),
        show i + c - i = c from by omega]
    · by_cases h2 : idx = i + c + h
      · rw [h2, getD_set2_snd _ _ _ _ _ (by omega), hread1, hread2,
          if_neg (by omega), if_pos (by omega : i + h ≤ i + c + h ∧ i + c + h < i + h + (c + 1)),
          show i + c + h - h = i + c from by omega,
          show i + c + h - i - h = c from by omega]
      · rw [getD_set2_other _ _ _ _ _ _ (fun he => h1 he.symm) (fun he => h2 he.symm),
          ih hc' idx hidx]
        by_cases hA : i ≤ idx ∧ idx < i + c
        · rw [if_pos hA, if_pos (by omega)]
        · by_cases hB : i + h ≤ idx ∧ idx < i + h + c
          · rw [if_neg hA, if_pos hB, if_neg (by omega), if_pos (by omega)]
          · rw [if_neg hA, if_neg hB, if_neg (by omega), if_neg (by omega)]

/-- Positions at or beyond the `B` processed blocks are untouched by the block loop. -/
lemma blockLoop_getD_out (h : ℕ) (w : ℂ) (l : Buf) (n : ℕ) (hl : l.length = n)
    (hh : 0 < h) :
    ∀ B idx, B * (2 * h) ≤ idx → idx < n →
      (blockLoop h w (2 * h) B l).getD idx 0 = l.getD idx 0 := by
  intro B
  induction B with
  | zero => intro idx _ _; rfl
  | succ B ih =>
    intro idx hB hidx
    have hsm : (B + 1) * (2 * h) = B * (2 * h) + 2 * h := Nat.succ_mul _ _
    have hLlen : (blockLoop h w (2 * h) B l).length = n := by rw [length_blockLoop, hl]
    show (innerLoop h w (B * (2 * h)) h (blockLoop h w (2 * h) B l)).getD idx 0 = _
    rw [innerLoop_getD h w (B * (2 * h)) _ n hLlen hh (by omega) h le_rfl idx hidx,
      if_neg (by omega), if_neg (by omega)]
    exact ih idx (by omega) hidx

/-- Characterisation of the block loop on the processed blocks: inside each of the `B`
blocks the parallel butterfly of the input values has been applied. -/
lemma blockLoop_getD_in (h : ℕ) (w : ℂ) (l : Buf) (n : ℕ) (hl : l.length = n)
    (hh : 0 < h) :
    ∀ B, B * (2 * h) ≤ n → ∀ b q, b < B → q < 2 * h →
      (blockLoop h w (2 * h) B l).getD (b * (2 * h) + q) 0 =
        if q < h then
          l.getD (b * (2 * h) + q) 0 + twiddle w q * l.getD (b * (2 * h) + q + h) 0
        else
          l.getD (b * (2 * h) + (q - h)) 0 - twiddle w (q - h) * l.getD (b * (2 * h) + q) 0 := by
  intro B
  induction B with
  | zero => intro _ b q hb _; exact absurd hb (Nat.not_lt_zero b)
  | succ B ih =>
    intro hBn b q hb hq
    have hsm : (B + 1) * (2 * h) = B * (2 * h) + 2 * h := Nat.succ_mul _ _
    have hLlen : (blockLoop h w (2 * h) B l).length = n := by rw [length_blockLoop, hl]
    show (innerLoop h w (B * (2 * h)) h (blockLoop h w (2 * h) B l)).getD
      (b * (2 * h) + q) 0 = _
    by_cases hbB : b = B
    · rw [hbB]
      rw [innerLoop_getD h w (B * (2 * h)) _ n hLlen hh (by omega) h le_rfl
        (B * (2 * h) + q) (by omega)]
      by_cases hqh : q < h
      · rw [if_pos (by omega), if_pos hqh,
          show B * (2 * h) + q - B * (2 * h) = q from by omega,
          blockLoop_getD_out h w l n hl hh B (B * (2 * h) + q) (by omega) (by omega),
          blockLoop_getD_out h w l n hl hh B (B * (2 * h) + q + h) (by omega) (by omega)]
      · rw [if_neg (by omega), if_pos (by omega), if_neg hqh,
          show B * (2 * h) + q - h = B * (2 * h) + (q - h) from by omega,
          show B * (2 * h) + q - B * (2 * h) - h = q - h from by omega,
          blockLoop_getD_out h w l n hl hh B (B * (2 * h) + (q - h)) (by omega) (by omega),
          blockLoop_getD_out h w l n hl hh B (B * (2 * h) + q) (by omega) (by omega)]
    · have hbB' : b < B := by omega
      have hpos : b * (2 * h) + q < B * (2 * h) := by
        have h1 : (b + 1) * (2 * h) ≤ B * (2 * h) := Nat.mul_le_mul_right _ (by omega)
        have h2 : (b + 1) * (2 * h) = b * (2 * h) + 2 * h := Nat.succ_mul _ _
        omega
      rw [innerLoop_getD h w (B * (2 * h)) _ n hLlen hh (by omega) h le_rfl
        (b * (2 * h) + q) (by omega), if_neg (by omega), if_neg (by omega)]
      exact ih (by omega) b q hbB' hq

/-! ### Roots of unity -/

lemma rootOf_eq_exp (sign : ℝ) (m : ℕ) :
    rootOf sign m = Complex.exp ((sign * 2 * Real.pi / m : ℝ) * Complex.I) := by
  rw [Complex.exp_mul_I, ← Complex.ofReal_cos, ← Complex.ofReal_sin]
  exact Complex.mk_eq_add_mul_I _ _

lemma rootOf_pow (sign : ℝ) (m k : ℕ) :
    rootOf sign m ^ k = Complex.exp ((k * (sign * 2 * Real.pi / m) : ℝ) * Complex.I) := by
  rw [rootOf_eq_exp, ← Complex.exp_nat_mul]
  congr 1
  push_cast
  ring

lemma rootOf_sq (sign : ℝ) (t : ℕ) :
    rootOf sign (2 ^ (t + 1)) ^ 2 = rootOf sign (2 ^ t) := by
  rw [rootOf_pow, rootOf_eq_exp]
  congr 2
  have h2t : ((2 : ℝ)) ^ t ≠ 0 := by positivity
  push_cast
  rw [pow_succ]
  field_simp
  ring

lemma rootOf_pow_self (sign : ℝ) (hsign : sign = 1 ∨ sign = -1) (t : ℕ) :
    rootOf sign (2 ^ (t + 1)) ^ (2 ^ (t + 1)) = 1 := by
  rw [rootOf_pow]
  have hne : ((2 : ℝ) ^ (t + 1)) ≠ 0 := by positivity
  have harg : ((2 ^ (t + 1) : ℕ) * (sign * 2 * Real.pi / (2 ^ (t + 1) : ℕ)) : ℝ)
      = sign * (2 * Real.pi) := by
    push_cast
    field_simp
    ring
  rw [harg]
  rcases hsign with h | h <;> subst h
  · rw [show ((1 * (2 * Real.pi) : ℝ) : ℂ) * Complex.I = 2 * Real.pi * Complex.I by
      push_cast; ring]
    exact Complex.exp_two_pi_mul_I
  · rw [show (((-1) * (2 * Real.pi) : ℝ) : ℂ) * Complex.I = -(2 * Real.pi * Complex.I) by
      push_cast; ring]
    rw [Complex.exp_neg, Complex.exp_two_pi_mul_I, inv_one]

lemma rootOf_pow_half (sign : ℝ) (hsign : sign = 1 ∨ sign = -1) (t : ℕ) :
    rootOf sign (2 ^ (t + 1)) ^ (2 ^ t) = -1 := by
  rw [rootOf_pow]
  have hne : ((2 : ℝ) ^ t) ≠ 0 := by positivity
  have harg : ((2 ^ t : ℕ) * (sign * 2 * Real.pi / (2 ^ (t + 1) : ℕ)) : ℝ)
      = sign * Real.pi := by
    push_cast
    rw [pow_succ]
    field_simp
    ring
  rw [harg]
  rcases hsign with h | h <;> subst h
  · rw [show ((1 * Real.pi : ℝ) : ℂ) * Complex.I = Real.pi * Complex.I by push_cast; ring]
    exact Complex.exp_pi_mul_I
  · rw [show (((-1) * Real.pi : ℝ) : ℂ) * Complex.I = -(Real.pi * Complex.I) by
      push_cast; ring]
    rw [Complex.exp_neg, Complex.exp_pi_mul_I]
    norm_num

lemma rootOf_ne_zero (sign : ℝ) (m : ℕ) : rootOf sign m ≠ 0 := by
  rw [rootOf_eq_exp]
  exact Complex.exp_ne_zero _

/-- Splitting a sum over `range (2·S)` into even and odd indices. -/
lemma sum_range_two_mul (S : ℕ) (f : ℕ → ℂ) :
    ∑ j ∈ Finset.range (2 * S), f j =
      (∑ j ∈ Finset.range S, f (2 * j)) + ∑ j ∈ Finset.range S, f (2 * j + 1) := by
  induction S with
  | zero => simp
  | succ S ih =>
    rw [show 2 * (S + 1) = 2 * S + 1 + 1 from by omega, Finset.sum_range_succ,
      Finset.sum_range_succ, ih, Finset.sum_range_succ (fun j => f (2 * j)) S,
      Finset.sum_range_succ (fun j => f (2 * j + 1)) S]
    ring

/-! ### The Danielson–Lanczos combination step -/

/-- Combining two interleaved half-size DFT sums into one full-size sum, low output
offsets (`q < S`): `∑_{j<2S} x_{b''+jM} w^{jq} = E_q + w^q·O_q` where `E`/`O` are the
half-size sums over the even/odd interleaved subsequences and `u = w²`. -/
lemma dl_combine (S M : ℕ) (xf : ℕ → ℂ) (w u : ℂ) (b'' q : ℕ) (hw2 : w ^ 2 = u) :
    ∑ j ∈ Finset.range (2 * S), xf (b'' + j * M) * w ^ (j * q) =
      (∑ j ∈ Finset.range S, xf (b'' + j * (2 * M)) * u ^ (j * q)) +
        w ^ q * ∑ j ∈ Finset.range S, xf (M + b'' + j * (2 * M)) * u ^ (j * q) := by
  rw [sum_range_two_mul S (fun j => xf (b'' + j * M) * w ^ (j * q)), Finset.mul_sum]
  congr 1
  · apply Finset.sum_congr rfl
    intro j _
    rw [show 2 * j * M = j * (2 * M) from by ring,
      show 2 * j * q = 2 * (j * q) from by ring, pow_mul, hw2]
  · apply Finset.sum_congr rfl
    intro j _
    rw [show b'' + (2 * j + 1) * M = M + b'' + j * (2 * M) from by ring,
      show (2 * j + 1) * q = 2 * (j * q) + q from by ring, pow_add, pow_mul, hw2]
    ring

/-- The same combination at the high output offsets (`S + q`): the twiddle picks up a
sign from `w^S = -1`, giving `E_q − w^q·O_q`. -/
lemma dl_combine_hi (S M : ℕ) (xf : ℕ → ℂ) (w u : ℂ) (b'' q : ℕ) (hw2 : w ^ 2 = u)
    (hwS : w ^ S = -1) (hwSS : w ^ (2 * S) = 1) :
    ∑ j ∈ Finset.range (2 * S), xf (b'' + j * M) * w ^ (j * (S + q)) =
      (∑ j ∈ Finset.range S, xf (b'' + j * (2 * M)) * u ^ (j * q)) -
        w ^ q * ∑ j ∈ Finset.range S, xf (M + b'' + j * (2 * M)) * u ^ (j * q) := by
  rw [sum_range_two_mul S (fun j => xf (b'' + j * M) * w ^ (j * (S + q))),
    sub_eq_add_neg]
  congr 1
  · apply Finset.sum_congr rfl
    intro j _
    rw [show 2 * j * M = j * (2 * M) from by ring,
      show 2 * j * (S + q) = 2 * S * j + 2 * (j * q) from by ring,
      pow_add, pow_mul, hwSS, one_pow, pow_mul, hw2, one_mul]
  · calc ∑ j ∈ Finset.range S, xf (b'' + (2 * j + 1) * M) * w ^ ((2 * j + 1) * (S + q))
        = ∑ j ∈ Finset.range S,
            -(w ^ q * (xf (M + b'' + j * (2 * M)) * u ^ (j * q))) := by
          apply Finset.sum_congr rfl
          intro j _
          rw [show b'' + (2 * j + 1) * M = M + b'' + j * (2 * M) from by ring,
            show (2 * j + 1) * (S + q) = 2 * S * j + 2 * (j * q) + S + q from by ring,
            pow_add, pow_add, pow_add, pow_mul, hwSS, one_pow, pow_mul, hw2, hwS]
          ring
      _ = -(w ^ q * ∑ j ∈ Finset.range S, xf (M + b'' + j * (2 * M)) * u ^ (j * q)) := by
          rw [Finset.sum_neg_distrib, Finset.mul_sum]

/-! ### Correctness of the stage loop -/

/-- Main loop invariant of `evaluate`: after the stages with `step = 2, …, 2^t`, each
size-`2^t` block `b` of the working buffer holds the size-`2^t` DFT (with sign `sign`)
of the stride-`2^(L-t)` subsequence of the original data starting at the bit-reversed
block number.  The working buffer `y` is assumed to be the bit-reversal permutation of
the original data `x`. -/
lemma stages_getD (sign : ℝ) (hsign : sign = 1 ∨ sign = -1) (L : ℕ) (x : ℕ → ℂ) :
    ∀ t, t ≤ L → ∀ y : Buf, y.length = 2 ^ L →
      (∀ i, i < 2 ^ L → y.getD i 0 = x (bitRev L i)) →
      ∀ b q, q < 2 ^ t → b * 2 ^ t + q < 2 ^ L →
        (stages sign (2 ^ L) t y).getD (b * 2 ^ t + q) 0 =
          ∑ j ∈ Finset.range (2 ^ t),
            x (bitRev (L - t) b + j * 2 ^ (L - t)) * rootOf sign (2 ^ t) ^ (j * q) := by
  intro t
  induction t with
  | zero =>
    intro _ y hylen hy b q hq hbq
    have hq0 : q = 0 := Nat.lt_one_iff.mp (by simpa using hq)
    subst hq0
    have hbL : b < 2 ^ L := by simpa using hbq
    simp only [stages, pow_zero, mul_one, add_zero, Nat.sub_zero, Finset.sum_range_one,
      Nat.zero_mul, zero_mul, mul_one]
    exact hy b hbL
  | succ t ih =>
    intro ht y hylen hy b q hq hbq
    have hSpos : 0 < 2 ^ t := Nat.pos_pow_of_pos t (by norm_num)
    have hstep2 : (2 : ℕ) ^ (t + 1) = 2 * 2 ^ t := by rw [pow_succ]; ring
    have hLsub : L - t = (L - (t + 1)) + 1 := by omega
    have hB : 2 ^ L / 2 ^ (t + 1) = 2 ^ (L - (t + 1)) := Nat.pow_div ht (by norm_num)
    have hBL : 2 ^ (L - (t + 1)) * (2 * 2 ^ t) = 2 ^ L := by
      rw [← hstep2, ← pow_add]
      congr 1
      omega
    show (blockLoop (2 ^ t) (rootOf sign (2 ^ (t + 1))) (2 ^ (t + 1))
        (2 ^ L / 2 ^ (t + 1)) (stages sign (2 ^ L) t y)).getD (b * 2 ^ (t + 1) + q) 0 = _
    set w := rootOf sign (2 ^ (t + 1)) with hw
    set z := stages sign (2 ^ L) t y with hz
    have hzlen : z.length = 2 ^ L := by rw [hz, length_stages, hylen]
    have hbq' : b * (2 * 2 ^ t) + q < 2 ^ L := by
      rw [← hstep2]
      exact hbq
    have hbB : b < 2 ^ (L - (t + 1)) := by
      by_contra hcon
      push_neg at hcon
      have h1 : 2 ^ (L - (t + 1)) * (2 * 2 ^ t) ≤ b * (2 * 2 ^ t) :=
        Nat.mul_le_mul_right _ hcon
      omega
    have hIH : ∀ b' q', q' < 2 ^ t → b' * 2 ^ t + q' < 2 ^ L →
        z.getD (b' * 2 ^ t + q') 0 =
          ∑ j ∈ Finset.range (2 ^ t),
            x (bitRev (L - t) b' + j * 2 ^ (L - t)) * rootOf sign (2 ^ t) ^ (j * q') := by
      intro b' q' h1 h2
      rw [hz]
      exact ih (by omega) y hylen hy b' q' h1 h2
    have hw2 : w ^ 2 = rootOf sign (2 ^ t) := by rw [hw]; exact rootOf_sq sign t
    have hwfull : w ^ (2 * 2 ^ t) = 1 := by
      rw [hw, ← hstep2]
      exact rootOf_pow_self sign hsign t
    have hwhalf : w ^ (2 ^ t) = -1 := by rw [hw]; exact rootOf_pow_half sign hsign t
    have hpow2M : (2 : ℕ) ^ ((L - (t + 1)) + 1) = 2 * 2 ^ (L - (t + 1)) := by
      rw [pow_succ]; ring
    rw [hB, hstep2]
    rw [blockLoop_getD_in (2 ^ t) w z (2 ^ L) hzlen hSpos (2 ^ (L - (t + 1)))
      (le_of_eq hBL) b q hbB (by omega)]
    by_cases hqS : q < 2 ^ t
    · rw [if_pos hqS]
      have e1 : b * (2 * 2 ^ t) + q = (2 * b) * 2 ^ t + q := by ring
      have e2 : 2 * b * 2 ^ t + q + 2 ^ t = (2 * b + 1) * 2 ^ t + q := by ring
      have hb2 : (2 * b + 1) * 2 ^ t + q < 2 ^ L := by
        have hb1 : (b + 1) * (2 * 2 ^ t) ≤ 2 ^ (L - (t + 1)) * (2 * 2 ^ t) :=
          Nat.mul_le_mul_right _ (by omega)
        have hsm : (b + 1) * (2 * 2 ^ t) = b * (2 * 2 ^ t) + 2 * 2 ^ t := Nat.succ_mul _ _
        omega
      rw [e1, e2, hIH (2 * b) q hqS (by omega), hIH (2 * b + 1) q hqS hb2,
        twiddle_eq_pow, hLsub, bitRev_two_mul (L - (t + 1)) b,
        bitRev_two_mul_add_one (L - (t + 1)) b, hpow2M,
        dl_combine (2 ^ t) (2 ^ (L - (t + 1))) x w (rootOf sign (2 ^ t))
          (bitRev (L - (t + 1)) b) q hw2]
    · rw [if_neg hqS]
      obtain ⟨q', rfl⟩ : ∃ q', q = 2 ^ t + q' := ⟨q - 2 ^ t, by omega⟩
      have hq' : q' < 2 ^ t := by omega
      have e0 : 2 ^ t + q' - 2 ^ t = q' := by omega
      have e1 : b * (2 * 2 ^ t) + q' = (2 * b) * 2 ^ t + q' := by ring
      have e2 : b * (2 * 2 ^ t) + (2 ^ t + q') = (2 * b + 1) * 2 ^ t + q' := by ring
      rw [e0, e1, e2, hIH (2 * b) q' hq' (by omega), hIH (2 * b + 1) q' hq' (by omega),
        twiddle_eq_pow, hLsub, bitRev_two_mul (L - (t + 1)) b,
        bitRev_two_mul_add_one (L - (t + 1)) b, hpow2M,
        dl_combine_hi (2 ^ t) (2 ^ (L - (t + 1))) x w (rootOf sign (2 ^ t))
          (bitRev (L - (t + 1)) b) q' hw2 hwhalf hwfull]

/-! ### Power-of-two tests and resizing -/

lemma log2_two_pow (k : ℕ) : Nat.log2 (2 ^ k) = k := by
  rw [Nat.log2_eq_log_two, Nat.log_pow (by norm_num)]

lemma isPow2_two_pow (k : ℕ) : isPow2 (2 ^ k) = true := by
  unfold isPow2
  rw [log2_two_pow]
  simp

lemma isPow2_iff (n : ℕ) : isPow2 n = true ↔ ∃ k, n = 2 ^ k := by
  constructor
  · intro h
    exact ⟨n.log2, by simpa [isPow2] using h⟩
  · rintro ⟨k, rfl⟩
    exact isPow2_two_pow k

lemma length_resizeZ (l : Buf) (k : ℕ) : (resizeZ l k).length = k := by
  simp only [resizeZ, List.length_append, List.length_take, List.length_replicate]
  omega

lemma getD_resizeZ (l : Buf) (k i : ℕ) (h : l.length ≤ k) :
    (resizeZ l k).getD i 0 = l.getD i 0 := by
  unfold resizeZ
  rw [List.take_of_length_le h]
  by_cases hi : i < l.length
  · rw [getD_append_left _ _ _ hi]
  · rw [getD_append_right _ _ _ (by omega), getD_replicate,
      getD_of_length_le _ _ (by omega)]

lemma take_resizeZ (l : Buf) (k : ℕ) (h : l.length ≤ k) :
    (resizeZ l k).take l.length = l := by
  unfold resizeZ
  rw [List.take_of_length_le h, List.take_left]

/-! ### `evaluate` computes the DFT -/

/-- On a buffer of length `2^L`, `evaluate` passes its assertion, restores the buffer,
and (for the signs actually used by the program) returns exactly the length-`2^L` DFT
of the buffer. -/
lemma evaluate_eq (sign : ℝ) (input : Buf) (L : ℕ) (hlen : input.length = 2 ^ L) :
    ∃ ret : Buf, evaluate input sign = some (input, ret) ∧ ret.length = 2 ^ L ∧
      (sign = 1 ∨ sign = -1 → ∀ k, k < 2 ^ L →
        ret.getD k 0 = dftF sign (2 ^ L) (fun j => input.getD j 0) k) := by
  have hshunlen : (shuffle_coeffs input (2 ^ L) L).length = 2 ^ L := by
    rw [length_shuffle_coeffs, hlen]
  refine ⟨stages sign (2 ^ L) L (shuffle_coeffs input (2 ^ L) L), ?_, ?_, ?_⟩
  · simp only [evaluate, hlen, log2_two_pow, isPow2_two_pow, if_true]
    rw [shuffle_coeffs_shuffle_coeffs input L hlen]
  · rw [length_stages, hshunlen]
  · intro hsign k hk
    have hstage := stages_getD sign hsign L (fun j => input.getD j 0) L le_rfl
      (shuffle_coeffs input (2 ^ L) L) hshunlen
      (fun i hi => shuffle_coeffs_getD input L hlen i hi) 0 k hk (by simpa using hk)
    simpa [dftF, bitRev, Nat.sub_self] using hstage

/-- `fft` on a buffer of length `2^L`: assertion passes, buffer restored, result is the
forward (`sign = 1`) DFT. -/
lemma fft_eq (input : Buf) (L : ℕ) (hlen : input.length = 2 ^ L) :
    ∃ ret : Buf, fft input = some (input, ret) ∧ ret.length = 2 ^ L ∧
      ∀ k, k < 2 ^ L → ret.getD k 0 = dftF 1 (2 ^ L) (fun j => input.getD j 0) k := by
  obtain ⟨ret, h1, h2, h3⟩ := evaluate_eq 1 input L hlen
  exact ⟨ret, h1, h2, h3 (Or.inl rfl)⟩

/-- `inverse_fft` on a buffer of length `2^L`: assertion passes, buffer restored, result
is the backward (`sign = -1`) DFT divided componentwise by `2^L`. -/
lemma inverse_fft_eq (input : Buf) (L : ℕ) (hlen : input.length = 2 ^ L) :
    ∃ out : Buf, inverse_fft input = some (input, out) ∧ out.length = 2 ^ L ∧
      ∀ k, k < 2 ^ L → out.getD k 0 =
        dftF (-1) (2 ^ L) (fun j => input.getD j 0) k / ((2 ^ L : ℕ) : ℂ) := by
  obtain ⟨ret, h1, h2, h3⟩ := evaluate_eq (-1) input L hlen
  refine ⟨ret.map fun x => x / ((ret.length : ℕ) : ℂ), ?_, ?_, ?_⟩
  · rw [inverse_fft, h1]
    rfl
  · rw [List.length_map, h2]
  · intro k hk
    rw [getD_map_mul _ _ _ (by omega), h2, h3 (Or.inr rfl) k hk]

/-! ### Orthogonality and Fourier inversion -/

lemma isPrimitiveRoot_rootOf (m : ℕ) (hm : m ≠ 0) : IsPrimitiveRoot (rootOf 1 m) m := by
  have h := Complex.isPrimitiveRoot_exp m hm
  rw [rootOf_eq_exp]
  convert h using 2
  push_cast
  ring

lemma rootOf_neg_eq_inv (m : ℕ) : rootOf (-1) m = (rootOf 1 m)⁻¹ := by
  apply eq_inv_of_mul_eq_one_right
  rw [rootOf_eq_exp, rootOf_eq_exp, ← Complex.exp_add,
    show ((1 * 2 * Real.pi / m : ℝ) : ℂ) * Complex.I +
      ((-1 * 2 * Real.pi / m : ℝ) : ℂ) * Complex.I = 0 by push_cast; ring]
  exact Complex.exp_zero

/-- Orthogonality of the forward and backward root powers:
`∑_{k<n} ζ^{ak}·ζ̄^{kc}` is `n` when `a = c` and `0` otherwise (`a, c < n`). -/
lemma rootOf_ortho (L a c : ℕ) (ha : a < 2 ^ L) (hc : c < 2 ^ L) :
    ∑ k ∈ Finset.range (2 ^ L),
        rootOf 1 (2 ^ L) ^ (a * k) * rootOf (-1) (2 ^ L) ^ (k * c) =
      if a = c then ((2 ^ L : ℕ) : ℂ) else 0 := by
  have hm : (2 : ℕ) ^ L ≠ 0 := by positivity
  have hprim := isPrimitiveRoot_rootOf (2 ^ L) hm
  have hζ0 : rootOf 1 (2 ^ L) ≠ 0 := rootOf_ne_zero 1 (2 ^ L)
  by_cases hac : a = c
  · subst hac
    rw [if_pos rfl]
    have hone : ∀ k ∈ Finset.range (2 ^ L),
        rootOf 1 (2 ^ L) ^ (a * k) * rootOf (-1) (2 ^ L) ^ (k * a) = 1 := by
      intro k _
      rw [rootOf_neg_eq_inv, inv_pow, show k * a = a * k from Nat.mul_comm k a,
        mul_inv_cancel₀ (pow_ne_zero _ hζ0)]
    rw [Finset.sum_congr rfl hone, Finset.sum_const, Finset.card_range]
    simp
  · rw [if_neg hac]
    have hterm : ∀ k ∈ Finset.range (2 ^ L),
        rootOf 1 (2 ^ L) ^ (a * k) * rootOf (-1) (2 ^ L) ^ (k * c) =
          (rootOf 1 (2 ^ L) ^ ((a : ℤ) - (c : ℤ))) ^ k := by
      intro k _
      rw [rootOf_neg_eq_inv, inv_pow, ← zpow_natCast (rootOf 1 (2 ^ L)) (a * k),
        ← zpow_natCast (rootOf 1 (2 ^ L)) (k * c), ← zpow_neg,
        ← zpow_add₀ hζ0, ← zpow_natCast (rootOf 1 (2 ^ L) ^ ((a : ℤ) - (c : ℤ))) k,
        ← zpow_mul]
      congr 1
      push_cast
      ring
    rw [Finset.sum_congr rfl hterm]
    have hρ1 : rootOf 1 (2 ^ L) ^ ((a : ℤ) - (c : ℤ)) ≠ 1 := by
      intro hone
      rw [hprim.zpow_eq_one_iff_dvd] at hone
      have hz : (a : ℤ) - (c : ℤ) = 0 :=
        Int.eq_zero_of_abs_lt_dvd hone (by rw [abs_sub_lt_iff]; omega)
      exact hac (by omega)
    rw [geom_sum_eq hρ1]
    have hρn : (rootOf 1 (2 ^ L) ^ ((a : ℤ) - (c : ℤ))) ^ (2 ^ L) = 1 := by
      rw [← zpow_natCast (rootOf 1 (2 ^ L) ^ ((a : ℤ) - (c : ℤ))) (2 ^ L), ← zpow_mul,
        mul_comm, zpow_mul, zpow_natCast, hprim.pow_eq_one, one_zpow]
    rw [hρn, sub_self, zero_div]

/-- Fourier inversion: the backward DFT of the forward DFT, divided by the length,
recovers the original sequence below the length. -/
lemma dft_inversion (L : ℕ) (cf pf : ℕ → ℂ)
    (hpf : ∀ t, t < 2 ^ L → pf t = dftF 1 (2 ^ L) cf t) (k : ℕ) (hk : k < 2 ^ L) :
    dftF (-1) (2 ^ L) pf k / ((2 ^ L : ℕ) : ℂ) = cf k := by
  have hm0 : ((2 ^ L : ℕ) : ℂ) ≠ 0 := Nat.cast_ne_zero.mpr (by positivity)
  rw [div_eq_iff hm0]
  calc dftF (-1) (2 ^ L) pf k
      = ∑ t ∈ Finset.range (2 ^ L), (∑ j ∈ Finset.range (2 ^ L),
          cf j * rootOf 1 (2 ^ L) ^ (j * t)) * rootOf (-1) (2 ^ L) ^ (t * k) := by
        apply Finset.sum_congr rfl
        intro t ht
        rw [hpf t (Finset.mem_range.mp ht)]
        rfl
    _ = ∑ t ∈ Finset.range (2 ^ L), ∑ j ∈ Finset.range (2 ^ L),
          cf j * rootOf 1 (2 ^ L) ^ (j * t) * rootOf (-1) (2 ^ L) ^ (t * k) := by
        apply Finset.sum_congr rfl
        intro t _
        rw [Finset.sum_mul]
    _ = ∑ j ∈ Finset.range (2 ^ L), ∑ t ∈ Finset.range (2 ^ L),
          cf j * rootOf 1 (2 ^ L) ^ (j * t) * rootOf (-1) (2 ^ L) ^ (t * k) :=
        Finset.sum_comm
    _ = ∑ j ∈ Finset.range (2 ^ L), cf j * ∑ t ∈ Finset.range (2 ^ L),
          rootOf 1 (2 ^ L) ^ (j * t) * rootOf (-1) (2 ^ L) ^ (t * k) := by
        apply Finset.sum_congr rfl
        intro j _
        rw [Finset.mul_sum]
        apply Finset.sum_congr rfl
        intro t _
        ring
    _ = ∑ j ∈ Finset.range (2 ^ L), cf j * (if j = k then ((2 ^ L : ℕ) : ℂ) else 0) := by
        apply Finset.sum_congr rfl
        intro j hj
        rw [rootOf_ortho L j k (Finset.mem_range.mp hj) hk]
    _ = cf k * ((2 ^ L : ℕ) : ℂ) := by
        rw [Finset.sum_eq_single_of_mem k (Finset.mem_range.mpr hk)]
        · rw [if_pos rfl]
        · intro j _ hjk
          rw [if_neg hjk, mul_zero]

/-- Convolution theorem: when `af` and `bf` vanish from `na`, `nb` on and
`na + nb ≤ 2^L + 1` (so no wraparound occurs), the pointwise product of forward DFTs
is the forward DFT of the linear convolution. -/
lemma dft_mul_dft (L na nb : ℕ) (af bf : ℕ → ℂ)
    (hna : ∀ i, na ≤ i → af i = 0) (hnb : ∀ i, nb ≤ i → bf i = 0)
    (hsum : na + nb ≤ 2 ^ L + 1) (t : ℕ) :
    dftF 1 (2 ^ L) af t * dftF 1 (2 ^ L) bf t =
      dftF 1 (2 ^ L) (fun k => ∑ i ∈ Finset.range (k + 1), af i * bf (k - i)) t := by
  unfold dftF
  rw [Finset.sum_mul_sum]
  calc ∑ i ∈ Finset.range (2 ^ L), ∑ j ∈ Finset.range (2 ^ L),
        (af i * rootOf 1 (2 ^ L) ^ (i * t)) * (bf j * rootOf 1 (2 ^ L) ^ (j * t))
      = ∑ i ∈ Finset.range (2 ^ L), ∑ j ∈ Finset.range (2 ^ L),
          af i * bf j * rootOf 1 (2 ^ L) ^ ((i + j) * t) := by
        apply Finset.sum_congr rfl
        intro i _
        apply Finset.sum_congr rfl
        intro j _
        rw [show (i + j) * t = i * t + j * t from by ring, pow_add]
        ring
    _ = ∑ p ∈ Finset.range (2 ^ L) ×ˢ Finset.range (2 ^ L),
          af p.1 * bf p.2 * rootOf 1 (2 ^ L) ^ ((p.1 + p.2) * t) :=
        (Finset.sum_product (Finset.range (2 ^ L)) (Finset.range (2 ^ L))
          (fun p => af p.1 * bf p.2 * rootOf 1 (2 ^ L) ^ ((p.1 + p.2) * t))).symm
    _ = ∑ p ∈ (Finset.range (2 ^ L) ×ˢ Finset.range (2 ^ L)).filter
          (fun p => p.1 + p.2 < 2 ^ L),
          af p.1 * bf p.2 * rootOf 1 (2 ^ L) ^ ((p.1 + p.2) * t) := by
        refine (Finset.sum_filter_of_ne ?_).symm
        intro p hp hne
        by_contra hge
        push_neg at hge
        apply hne
        by_cases h1 : na ≤ p.1
        · rw [hna p.1 h1, zero_mul, zero_mul]
        · by_cases h2 : nb ≤ p.2
          · rw [hnb p.2 h2, mul_zero, zero_mul]
          · exact absurd hge (by omega)
    _ = ∑ q ∈ (Finset.range (2 ^ L)).sigma (fun k => Finset.range (k + 1)),
          af q.2 * bf (q.1 - q.2) * rootOf 1 (2 ^ L) ^ (q.1 * t) := by
        apply Finset.sum_nbij' (fun p => (⟨p.1 + p.2, p.1⟩ : (_ : ℕ) × ℕ))
          (fun q => (q.2, q.1 - q.2))
        · intro p hp
          simp only [Finset.mem_filter, Finset.mem_product, Finset.mem_range] at hp
          simp only [Finset.mem_sigma, Finset.mem_range]
          omega
        · rintro ⟨k, i⟩ hq
          simp only [Finset.mem_sigma, Finset.mem_range] at hq
          simp only [Finset.mem_filter, Finset.mem_product, Finset.mem_range]
          omega
        · intro p _
          simp
        · rintro ⟨k, i⟩ hq
          simp only [Finset.mem_sigma, Finset.mem_range] at hq
          simp only [Sigma.mk.inj_iff, heq_eq_eq]
          exact ⟨by omega, trivial⟩
        · intro p _
          simp
    _ = ∑ k ∈ Finset.range (2 ^ L), ∑ i ∈ Finset.range (k + 1),
          af i * bf (k - i) * rootOf 1 (2 ^ L) ^ (k * t) :=
        Finset.sum_sigma _ _ _
    _ = ∑ k ∈ Finset.range (2 ^ L), (∑ i ∈ Finset.range (k + 1),
          af i * bf (k - i)) * rootOf 1 (2 ^ L) ^ (k * t) := by
        apply Finset.sum_congr rfl
        intro k _
        rw [Finset.sum_mul]

/-! ### The multiplier computes the naive convolution -/

lemma length_naiveConv (a b : Buf) :
    (naiveConv a b).length = a.length + b.length - 1 := by
  simp [naiveConv]

lemma getD_naiveConv (a b : Buf) (k : ℕ) (hk : k < a.length + b.length - 1) :
    (naiveConv a b).getD k 0 =
      ∑ i ∈ Finset.range (k + 1), a.getD i 0 * b.getD (k - i) 0 :=
  getD_range_map _ _ _ hk

/-- Master lemma: on nonempty inputs `mul` returns, restores both operand buffers
exactly, and the product coefficients are exactly the naive discrete convolution. -/
lemma mul_eq (a b : Buf) (ha : 1 ≤ a.length) (hb : 1 ≤ b.length) :
    mul a b = some (a, b, naiveConv a b) := by
  rw [mul, if_neg (by omega)]
  set N := nextPow2 (a.length + b.length - 1) with hN
  have hN2 : N = 2 ^ Nat.clog 2 (a.length + b.length - 1) := hN
  set La := Nat.clog 2 (a.length + b.length - 1) with hLa
  have hle : a.length + b.length - 1 ≤ 2 ^ La :=
    Nat.le_pow_clog (by norm_num) (a.length + b.length - 1)
  have hna : a.length ≤ 2 ^ La := by omega
  have hmb : b.length ≤ 2 ^ La := by omega
  obtain ⟨pa, hfa, hpalen, hpaval⟩ :=
    fft_eq (resizeZ a N) La (by rw [length_resizeZ, hN2])
  obtain ⟨pb, hfb, hpblen, hpbval⟩ :=
    fft_eq (resizeZ b N) La (by rw [length_resizeZ, hN2])
  have hnplen : (List.zipWith (· * ·) pa pb).length = 2 ^ La := by
    rw [List.length_zipWith, hpalen, hpblen, Nat.min_self]
  obtain ⟨out, hinv, houtlen, houtval⟩ :=
    inverse_fft_eq (List.zipWith (· * ·) pa pb) La hnplen
  rw [hfa, Option.some_bind]
  show (fft (resizeZ b N)).bind _ = _
  rw [hfb, Option.some_bind]
  show (inverse_fft (List.zipWith (· * ·) pa pb)).bind _ = _
  rw [hinv, Option.some_bind]
  show some ((resizeZ a N).take a.length, (resizeZ b N).take b.length,
    out.take (a.length + b.length - 1)) = _
  have htakea : (resizeZ a N).take a.length = a :=
    take_resizeZ a N (by rw [hN2]; exact hna)
  have htakeb : (resizeZ b N).take b.length = b :=
    take_resizeZ b N (by rw [hN2]; exact hmb)
  rw [htakea, htakeb]
  -- it remains to identify the truncated inverse transform with the convolution
  have haf : (fun j => (resizeZ a N).getD j 0) = fun j => a.getD j 0 := by
    funext j
    exact getD_resizeZ a N j (by rw [hN2]; exact hna)
  have hbf : (fun j => (resizeZ b N).getD j 0) = fun j => b.getD j 0 := by
    funext j
    exact getD_resizeZ b N j (by rw [hN2]; exact hmb)
  rw [haf] at hpaval
  rw [hbf] at hpbval
  have hconv : out.take (a.length + b.length - 1) = naiveConv a b := by
    apply ext_getD
    · rw [List.length_take, houtlen, length_naiveConv, Nat.min_eq_left hle]
    · intro k hk
      rw [List.length_take, houtlen, Nat.min_eq_left hle] at hk
      have hk2 : k < 2 ^ La := by omega
      rw [getD_take out _ k hk, getD_naiveConv a b k hk, houtval k hk2]
      have hzip : ∀ t, t < 2 ^ La → (List.zipWith (· * ·) pa pb).getD t 0 =
          dftF 1 (2 ^ La) (fun j => a.getD j 0) t *
            dftF 1 (2 ^ La) (fun j => b.getD j 0) t := by
        intro t ht
        rw [getD_zipWith_mul pa pb t (by omega) (by omega), hpaval t ht, hpbval t ht]
      have hpf : ∀ t, t < 2 ^ La → (List.zipWith (· * ·) pa pb).getD t 0 =
          dftF 1 (2 ^ La)
            (fun j => ∑ i ∈ Finset.range (j + 1), a.getD i 0 * b.getD (j - i) 0) t := by
        intro t ht
        rw [hzip t ht]
        exact dft_mul_dft La a.length b.length (fun j => a.getD j 0)
          (fun j => b.getD j 0) (fun i hi => getD_of_length_le a i hi)
          (fun i hi => getD_of_length_le b i hi) (by omega) t
      exact dft_inversion La
        (fun j => ∑ i ∈ Finset.range (j + 1), a.getD i 0 * b.getD (j - i) 0)
        (fun j => (List.zipWith (· * ·) pa pb).getD j 0) hpf k hk2
  rw [hconv]

/-- Convolution with a single constant `[c]` is the scalar multiple. -/
lemma naiveConv_singleton (a : Buf) (c : ℂ) :
    naiveConv a [c] = a.map (fun x => c * x) := by
  apply ext_getD
  · rw [length_naiveConv, List.length_map]
    simp
  · intro k hk
    rw [length_naiveConv] at hk
    have hk' : k < a.length := by simpa using hk
    rw [getD_naiveConv a [c] k (by simpa using hk'), getD_map_mul _ _ _ hk',
      Finset.sum_eq_single_of_mem k (Finset.mem_range.mpr (by omega))]
    · rw [show k - k = 0 from by omega]
      rw [show [c].getD 0 0 = c from rfl]
      ring
    · intro i hi hik
      have hi' : i < k + 1 := Finset.mem_range.mp hi
      rw [getD_of_length_le [c] (k - i) (by simp; omega), mul_zero]

/-- Convolution with an all-zero buffer is all-zero (of the exact product length). -/
lemma naiveConv_replicate_zero (a : Buf) (k : ℕ) :
    naiveConv a (List.replicate k 0) = List.replicate (a.length + k - 1) 0 := by
  apply ext_getD
  · rw [length_naiveConv, List.length_replicate, List.length_replicate]
  · intro j hj
    rw [length_naiveConv] at hj
    rw [getD_naiveConv a _ j (by simpa using hj), getD_replicate]
    apply Finset.sum_eq_zero
    intro i _
    rw [getD_replicate, mul_zero]

/-! ### Claim theorems -/

/-- C1: for all coefficient buffers `A` (length `n ≥ 1`) and `B` (length `m ≥ 1`), the
product polynomial returned by `A.mul(B)` equals, component for component, the naive
O(n·m) discrete convolution of `A` and `B` (exactly, in the idealised real-arithmetic
model — hence in particular within any floating-point tolerance). -/
theorem C1_mul_is_naive_convolution (A B : Buf) (hA : 1 ≤ A.length) (hB : 1 ≤ B.length) :
    (mul A B).map (fun t => t.2.2) = some (naiveConv A B) := by
  rw [mul_eq A B hA hB]
  rfl

theorem C1_mul_is_naive_convolution_witness :
    1 ≤ [(1 : ℂ)].length ∧
      (mul [(1 : ℂ)] [(1 : ℂ)]).map (fun t => t.2.2) =
        some (naiveConv [(1 : ℂ)] [(1 : ℂ)]) :=
  ⟨by norm_num, C1_mul_is_naive_convolution [(1 : ℂ)] [(1 : ℂ)] (by norm_num) (by norm_num)⟩

/-- C2: for every complex buffer whose length is a power of two, `fft` followed by
`inverse_fft` reproduces the original buffer contents exactly (in the idealised model;
a fortiori with absolute error below any tolerance): `fft` returns the point sequence
`pts` leaving the buffer unchanged, and `inverse_fft pts` returns the original buffer. -/
theorem C2_inverse_fft_fft_roundtrip (buffer : Buf) (K : ℕ) (h : buffer.length = 2 ^ K) :
    ∃ pts : Buf, fft buffer = some (buffer, pts) ∧
      inverse_fft pts = some (pts, buffer) := by
  obtain ⟨pts, h1, h2, h3⟩ := fft_eq buffer K h
  obtain ⟨out, h4, h5, h6⟩ := inverse_fft_eq pts K h2
  have hout : out = buffer := by
    apply ext_getD
    · rw [h5, h]
    · intro i hi
      rw [h5] at hi
      rw [h6 i hi]
      exact dft_inversion K (fun j => buffer.getD j 0) (fun j => pts.getD j 0) h3 i hi
  exact ⟨pts, h1, by rw [h4, hout]⟩

theorem C2_inverse_fft_fft_roundtrip_witness :
    [(1 : ℂ)].length = 2 ^ 0 ∧
      ∃ pts : Buf, fft [(1 : ℂ)] = some ([(1 : ℂ)], pts) ∧
        inverse_fft pts = some (pts, [(1 : ℂ)]) :=
  ⟨rfl, C2_inverse_fft_fft_roundtrip [(1 : ℂ)] 0 rfl⟩

/-- C3: for nonempty operands of lengths `n` and `m`, the product returned by `mul` has
exactly `n + m - 1` coefficients. -/
theorem C3_output_length (A B : Buf) (hA : 1 ≤ A.length) (hB : 1 ≤ B.length) :
    (mul A B).map (fun t => t.2.2.length) = some (A.length + B.length - 1) := by
  rw [mul_eq A B hA hB]
  simp [length_naiveConv]

theorem C3_output_length_witness :
    1 ≤ [(1 : ℂ)].length ∧
      (mul [(1 : ℂ)] [(1 : ℂ)]).map (fun t => t.2.2.length) =
        some ([(1 : ℂ)].length + [(1 : ℂ)].length - 1) :=
  ⟨by norm_num, C3_output_length [(1 : ℂ)] [(1 : ℂ)] (by norm_num) (by norm_num)⟩

/-- C4 (counterexample): on `A = [7, -1, 4, 3]` and `B = [3, -2, -4, 7]` the product
returned by `mul` is NOT the sequence `[21, -17, -40, 20, 29, -22, 21]` stated by the
claim (already its degree-2 coefficient is `-14`, not `-40`). -/
theorem C4_claimed_coefficients_refuted :
    (mul (ofReals [7, -1, 4, 3]) (ofReals [3, -2, -4, 7])).map (fun t => t.2.2) ≠
      some (ofReals [21, -17, -40, 20, 29, -22, 21]) := by
  rw [mul_eq _ _ (by simp [ofReals]) (by simp [ofReals])]
  intro h
  simp only [Option.map_some', Option.some.injEq] at h
  have h2 : (naiveConv (ofReals [7, -1, 4, 3]) (ofReals [3, -2, -4, 7])).getD 2 0 =
      (ofReals [21, -17, -40, 20, 29, -22, 21]).getD 2 0 := by rw [h]
  rw [getD_naiveConv _ _ 2 (by simp [ofReals])] at h2
  simp only [Finset.sum_range_succ, ofReals] at h2
  norm_num at h2

/-- C4 (amended): on `A = [7, -1, 4, 3]` and `B = [3, -2, -4, 7]`, `A.mul(B)` returns a
polynomial of length 7 whose coefficients in ascending order are exactly the naive
convolution `[21, -17, -14, 54, -29, 16, 21]` (again exact in the idealised model). -/
theorem C4_concrete_scenario :
    (mul (ofReals [7, -1, 4, 3]) (ofReals [3, -2, -4, 7])).map (fun t => t.2.2) =
      some (ofReals [21, -17, -14, 54, -29, 16, 21]) := by
  rw [mul_eq _ _ (by simp [ofReals]) (by simp [ofReals])]
  simp only [Option.map_some', Option.some.injEq]
  apply ext_getD
  · simp [length_naiveConv, ofReals]
  · intro k hk
    rw [length_naiveConv] at hk
    have hk7 : k < 7 := by simpa [ofReals] using hk
    rw [getD_naiveConv _ _ k (by simpa [ofReals] using hk7)]
    interval_cases k <;>
      · simp [Finset.sum_range_succ, ofReals]
        norm_num

/-- C5: `evaluate` (and hence `fft` and `inverse_fft`) halts on the
`assert!(n.is_power_of_two())` exactly when the buffer length is not a power of two:
it returns no output (`none`) iff the length is not a power of two, for any sign. -/
theorem C5_non_pow2_fail_fast (buffer : Buf) (sign : ℝ) :
    (evaluate buffer sign = none ↔ ¬ ∃ k, buffer.length = 2 ^ k) ∧
    (fft buffer = none ↔ ¬ ∃ k, buffer.length = 2 ^ k) ∧
    (inverse_fft buffer = none ↔ ¬ ∃ k, buffer.length = 2 ^ k) := by
  have base : ∀ s : ℝ, evaluate buffer s = none ↔ ¬ ∃ k, buffer.length = 2 ^ k := by
    intro s
    rw [← isPow2_iff]
    cases hp : isPow2 buffer.length
    · simp only [evaluate, hp]
      simp
    · simp only [evaluate, hp]
      simp
  refine ⟨base sign, ?_, ?_⟩
  · rw [fft]
    exact base 1
  · rw [inverse_fft, Option.map_eq_none']
    exact base (-1)

/-- C6 (counterexample): with an empty first operand (`n = 0`, `m = 3`), `mul` returns,
but the second operand's buffer ends at length 2, not its original `[3, -2, -4]`: the
padded length `next_power_of_two(0 + 3 - 1) = 2` is smaller than `m`, so `resize_with`
truncates `rhs` and the final `truncate(m)` cannot restore it. -/
theorem C6_operand_not_restored_when_empty :
    (mul ([] : Buf) [(3 : ℂ), -2, -4]).map (fun t => t.2.1) ≠
      some [(3 : ℂ), -2, -4] := by
  have hclog : Nat.clog 2 2 = 1 := Nat.clog_pow 2 1 (by norm_num)
  have hN : nextPow2 2 = 2 ^ 1 := by rw [nextPow2, hclog]
  rw [mul, if_neg (by simp)]
  rw [show ([] : Buf).length + [(3 : ℂ), -2, -4].length - 1 = 2 from by simp]
  obtain ⟨pa, hfa, hpalen, _⟩ :=
    fft_eq (resizeZ ([] : Buf) (nextPow2 2)) 1 (by rw [length_resizeZ]; exact hN)
  obtain ⟨pb, hfb, hpblen, _⟩ :=
    fft_eq (resizeZ [(3 : ℂ), -2, -4] (nextPow2 2)) 1 (by rw [length_resizeZ]; exact hN)
  rw [hfa, Option.some_bind]
  rw [hfb, Option.some_bind]
  have hzlen : (List.zipWith (· * ·) pa pb).length = 2 ^ 1 := by
    rw [List.length_zipWith, hpalen, hpblen, Nat.min_self]
  obtain ⟨out, hinv, _, _⟩ := inverse_fft_eq (List.zipWith (· * ·) pa pb) 1 hzlen
  rw [hinv, Option.some_bind]
  rw [show resizeZ [(3 : ℂ), -2, -4] (nextPow2 2) = [(3 : ℂ), -2] from by
    rw [hN]; simp [resizeZ]]
  simp

/-- C6 (amended): for operands with `n ≥ 1` and `m ≥ 1`, after `A.mul(B)` both operand
buffers hold exactly their original contents (the temporary zero-padding and the
in-place bit-reversals are fully undone), so multiplication has no permanent side
effect on nonempty operands. -/
theorem C6_operands_restored (A B : Buf) (hA : 1 ≤ A.length) (hB : 1 ≤ B.length) :
    (mul A B).map (fun t => (t.1, t.2.1)) = some (A, B) := by
  rw [mul_eq A B hA hB]
  rfl

theorem C6_operands_restored_witness :
    1 ≤ [(1 : ℂ)].length ∧
      (mul [(1 : ℂ)] [(1 : ℂ)]).map (fun t => (t.1, t.2.1)) =
        some ([(1 : ℂ)], [(1 : ℂ)]) :=
  ⟨by norm_num, C6_operands_restored [(1 : ℂ)] [(1 : ℂ)] (by norm_num) (by norm_num)⟩

/-- C7: on a buffer of power-of-two length, `fft` and `inverse_fft` both return a
result sequence while leaving the caller's buffer contents exactly as they were (the
internal bit-reversal permutation is undone before returning). -/
theorem C7_input_buffer_unchanged (buffer : Buf) (K : ℕ) (h : buffer.length = 2 ^ K) :
    (∃ pts, fft buffer = some (buffer, pts)) ∧
      (∃ out, inverse_fft buffer = some (buffer, out)) := by
  obtain ⟨pts, h1, _, _⟩ := fft_eq buffer K h
  obtain ⟨out, h4, _, _⟩ := inverse_fft_eq buffer K h
  exact ⟨⟨pts, h1⟩, ⟨out, h4⟩⟩

theorem C7_input_buffer_unchanged_witness :
    [(1 : ℂ)].length = 2 ^ 0 ∧
      ((∃ pts, fft [(1 : ℂ)] = some ([(1 : ℂ)], pts)) ∧
        (∃ out, inverse_fft [(1 : ℂ)] = some ([(1 : ℂ)], out))) :=
  ⟨rfl, C7_input_buffer_unchanged [(1 : ℂ)] 0 rfl⟩

/-- C8: multiplying any nonempty `A` by a constant polynomial `[c]` succeeds (the call
returns through the same transform machinery) and yields exactly `c` times the
coefficients of `A` — a list of the same length `n`.  Taking `A` of length 1 is the
`n = 1` instance, where the padded transform length is 1. -/
theorem C8_scalar_multiplication (A : Buf) (c : ℂ) (hA : 1 ≤ A.length) :
    (mul A [c]).map (fun t => t.2.2) = some (A.map (fun x => c * x)) := by
  rw [mul_eq A [c] hA (by norm_num), ← naiveConv_singleton A c]
  rfl

theorem C8_scalar_multiplication_witness :
    1 ≤ [(1 : ℂ)].length ∧
      (mul [(1 : ℂ)] [(2 : ℂ)]).map (fun t => t.2.2) =
        some ([(1 : ℂ)].map (fun x => (2 : ℂ) * x)) :=
  ⟨by norm_num, C8_scalar_multiplication [(1 : ℂ)] 2 (by norm_num)⟩

/-- C9: multiplying any nonempty `A` (length `n`) by the all-zero polynomial of length
`k ≥ 1` yields the all-zero polynomial of length `n + k - 1`. -/
theorem C9_zero_polynomial_absorption (A : Buf) (k : ℕ) (hA : 1 ≤ A.length)
    (hk : 1 ≤ k) :
    (mul A (List.replicate k 0)).map (fun t => t.2.2) =
      some (List.replicate (A.length + k - 1) 0) := by
  rw [mul_eq A (List.replicate k 0) hA (by simpa using hk),
    ← naiveConv_replicate_zero A k]
  rfl

theorem C9_zero_polynomial_absorption_witness :
    1 ≤ [(1 : ℂ)].length ∧
      (mul [(1 : ℂ)] (List.replicate 1 0)).map (fun t => t.2.2) =
        some (List.replicate ([(1 : ℂ)].length + 1 - 1) 0) :=
  ⟨by norm_num, C9_zero_polynomial_absorption [(1 : ℂ)] 1 (by norm_num) le_rfl⟩

/-- C10: when both operands are empty, `n + m - 1` underflows `usize` (a debug-build
panic, modelled as `none`), so `mul` fails instead of returning any polynomial. -/
theorem C10_empty_operands_fail : mul ([] : Buf) ([] : Buf) = none := by
  rw [mul]
  simp

end PolyFFT
